import Mathlib

/-!
Shallow embedding of the Dominion stats tracker (src/tracker.py).

Strings are modelled as lists of characters (`Str`), Python dicts as
insertion-ordered association lists, the SQLite `games` table as a list of
rows together with the AUTOINCREMENT sequence value, and the
`all_kingdom_cards` table as the list of stored card names.

Python floats in the statistics output are modelled as rationals; every
value the statistics pass produces is exactly representable, so no
rounding behaviour is involved in any statement below.
-/

set_option maxRecDepth 4000

/-- Characters treated as whitespace by the default `str.strip()`
(ASCII range; the tracker only ever strips user keyboard input). -/
def pyIsSpace (c : Char) : Bool :=
  c = ' ' || c = '\t' || c = '\n' || c = '\r' || c = '\x0b' || c = '\x0c'

/-- Model of a Python string: a list of characters. -/
abbrev Str := List Char

/-- Python `str.strip()`: drop whitespace from both ends. -/
def stripStr (s : Str) : Str :=
  ((s.dropWhile pyIsSpace).reverse.dropWhile pyIsSpace).reverse

/-- Decimal digit character for a value below ten (as produced by `str(n)`). -/
def digitChar10 : Nat → Char
  | 0 => '0'
  | 1 => '1'
  | 2 => '2'
  | 3 => '3'
  | 4 => '4'
  | 5 => '5'
  | 6 => '6'
  | 7 => '7'
  | 8 => '8'
  | _ => '9'

/-- Numeric value of a decimal digit character. -/
def charVal (c : Char) : Nat := c.toNat - 48

/-- The digit part of the grammar accepted by Python `int()` on a stripped
string: a nonempty run of ASCII decimal digits in which single underscores
may appear between two digits.  (Non-ASCII decimal digits, also accepted by
Python, are not modelled; no statement below depends on them.) -/
def digitsUS : Str → Bool
  | [] => false
  | [c] => c.isDigit
  | c :: d :: rest => c.isDigit && (if d = '_' then digitsUS rest else digitsUS (d :: rest))

/-- Value of a digit run, underscores skipped. -/
def digitsVal (s : Str) : Nat :=
  s.foldl (fun a c => if c = '_' then a else a * 10 + charVal c) 0

/-- Decimal rendering of a natural number, fuelled recursion on the number
of divisions by ten (`fuel ≥ n` suffices). -/
def natToStrAux : Nat → Nat → Str
  | 0, _ => []
  | fuel + 1, n => if n = 0 then [] else natToStrAux fuel (n / 10) ++ [digitChar10 (n % 10)]

/-- Python `str(n)` for a natural number. -/
def natToStr (n : Nat) : Str := if n = 0 then ['0'] else natToStrAux n n

/-- Python `str(v)` for an integer (as used by the f-string `"{k}:{v}"`
in `record_game`, tracker.py line 189). -/
def intToStr (v : Int) : Str :=
  if v < 0 then '-' :: natToStr v.natAbs else natToStr v.toNat

/-- Python `int(s)` on a string: strip whitespace, then an optional single
sign followed by a digit run; any other input raises `ValueError`,
modelled as `none`. -/
def pyParseInt (s : Str) : Option Int :=
  match stripStr s with
  | [] => none
  | c :: rest =>
    if c = '-' then (if digitsUS rest then some (-(digitsVal rest : Int)) else none)
    else if c = '+' then (if digitsUS rest then some ((digitsVal rest : Int)) else none)
    else if digitsUS (c :: rest) then some ((digitsVal (c :: rest) : Int)) else none

/-- Encoding of a list-valued field: `";".join(xs)`
(tracker.py lines 187-191). -/
def encodeList (xs : List Str) : Str := [';'].intercalate xs

/-- Decoding of a list-valued field:
`s.split(";") if s else []` (tracker.py lines 213-214, 226-227). -/
def decodeList (s : Str) : List Str := if s = [] then [] else s.splitOn ';'

/-- Encoding of the scores mapping:
`";".join(f"{k}:{v}" for k, v in scores.items())` (tracker.py line 189). -/
def encodeScores (xs : List (Str × Int)) : Str :=
  [';'].intercalate (xs.map fun p => p.1 ++ ':' :: intToStr p.2)

/-- Insertion-ordered association-list update, modelling `d[k] = v` on a
Python dict: overwrite in place if the key is present, append otherwise. -/
def dset {κ α : Type} [DecidableEq κ] : List (κ × α) → κ → α → List (κ × α)
  | [], k, v => [(k, v)]
  | (k', v') :: rest, k, v =>
    if k' = k then (k, v) :: rest else (k', v') :: dset rest k v

/-- Association-list lookup with a default, modelling `defaultdict` access
and dict indexing. -/
def dget {κ α : Type} [DecidableEq κ] (v₀ : α) : List (κ × α) → κ → α
  | [], _ => v₀
  | (k', v) :: rest, k => if k' = k then v else dget v₀ rest k

/-- Key membership, modelling `k in d` on a Python dict. -/
def dhas {κ α : Type} [DecidableEq κ] : List (κ × α) → κ → Bool
  | [], _ => false
  | (k', _) :: rest, k => k' = k || dhas rest k

/-- The keys of an association list, in insertion order. -/
def dkeys {κ α : Type} (d : List (κ × α)) : List κ := d.map Prod.fst

/-- One step of the score-cell decoding loop in `load_game_data`
(tracker.py lines 218-224): split the entry on `:`; with exactly two parts,
strip the key and try `int` on the stripped value, storing the pair on
success and recording a warning for the entry on `ValueError`; with any
other number of parts the entry is passed over with no warning. -/
def decodeScoresStep (acc : List (Str × Int) × List Str) (entry : Str) :
    List (Str × Int) × List Str :=
  match entry.splitOn ':' with
  | [a, b] =>
    match pyParseInt (stripStr b) with
    | some v => (dset acc.1 (stripStr a) v, acc.2)
    | none => (acc.1, acc.2 ++ [entry])
  | _ => acc

/-- Decoding of the scores cell in `load_game_data` (tracker.py lines
216-224): empty cell gives an empty dict, otherwise the cell is split on
`;` and each entry processed by `decodeScoresStep`.  Returns the decoded
mapping together with the list of entries that produced a warning. -/
def decodeScores (s : Str) : List (Str × Int) × List Str :=
  if s = [] then ([], []) else (s.splitOn ';').foldl decodeScoresStep ([], [])

/-- The entries a stored scores cell is split into. -/
def splitEntries (s : Str) : List Str := if s = [] then [] else s.splitOn ';'

/-- An entry that `load_game_data` decodes into a score pair: exactly one
`:` and an integer-parsable value part. -/
def entryGood (e : Str) : Bool :=
  match e.splitOn ':' with
  | [_, b] => (pyParseInt (stripStr b)).isSome
  | _ => false

/-- An entry that `load_game_data` warns about: exactly one `:` but a value
part on which `int` fails. -/
def entryWarn (e : Str) : Bool :=
  match e.splitOn ':' with
  | [_, b] => (pyParseInt (stripStr b)).isNone
  | _ => false

/-- The key-value pair decoded from a good entry. -/
def entryKV (e : Str) : Str × Int :=
  match e.splitOn ':' with
  | [a, b] => (stripStr a, (pyParseInt (stripStr b)).getD 0)
  | _ => ([], 0)

/-- Python `<=` on strings restricted to the character lists:
lexicographic comparison by code point. -/
def charListLe : List Char → List Char → Bool
  | [], _ => true
  | _ :: _, [] => false
  | a :: as, b :: bs => if a < b then true else if b < a then false else charListLe as bs

/-- Python `s1 <= s2` on strings. -/
def pyStrLe (a b : String) : Bool := charListLe a.data b.data

/-- Python `sorted` on a list of strings.  `sorted` is a stable sort under a
total order; on strings the order is antisymmetric, so any correct sorting
algorithm produces the same output, and insertion sort is itself stable. -/
def sortStrings (l : List String) : List String :=
  List.insertionSort (fun a b => pyStrLe a b = true) l

/-- One decoded game record, restricted to the fields `view_player_stats`
reads: the row id, the winners list and the scores mapping
(tracker.py lines 274-276). -/
structure Game where
  gid : Nat
  winners : List String
  scores : List (String × Int)
deriving DecidableEq

/-- The four accumulator dicts of `view_player_stats` (tracker.py lines
269-272) plus the list of emitted cross-reference warnings, each warning
recording the winner name and the game id (line 288). -/
structure StatsAcc where
  wins : List (String × Nat)
  games : List (String × Nat)
  total : List (String × Int)
  maxs : List (String × Int)
  warns : List (String × Nat)
deriving DecidableEq

/-- Processing of one `(player, score)` pair of a record
(tracker.py lines 278-282): bump the games count, add to the running total,
and raise the high-score cell when the score is strictly greater (the
`defaultdict` access inserts a zero cell first). -/
def procScore (acc : StatsAcc) (s : String × Int) : StatsAcc :=
  let games' := dset acc.games s.1 (dget 0 acc.games s.1 + 1)
  let total' := dset acc.total s.1 (dget 0 acc.total s.1 + s.2)
  let m := dget 0 acc.maxs s.1
  let maxs' := if s.2 > m then dset acc.maxs s.1 s.2 else dset acc.maxs s.1 m
  { acc with games := games', total := total', maxs := maxs' }

/-- Processing of one winner name of a record (tracker.py lines 284-288):
the win is counted when the name is a key of the *accumulated*
`player_games` dict, and a warning is recorded otherwise. -/
def procWinner (gid : Nat) (acc : StatsAcc) (w : String) : StatsAcc :=
  if dhas acc.games w then
    { acc with wins := dset acc.wins w (dget 0 acc.wins w + 1) }
  else
    { acc with warns := acc.warns ++ [(w, gid)] }

/-- Processing of one record (tracker.py lines 274-288): the scores pass,
then the winners pass. -/
def procGame (acc : StatsAcc) (g : Game) : StatsAcc :=
  g.winners.foldl (procWinner g.gid) (g.scores.foldl procScore acc)

/-- The accumulators before the first record. -/
def emptyAcc : StatsAcc := ⟨[], [], [], [], []⟩

/-- The accumulation loop of `view_player_stats` over all records. -/
def aggregate (games : List Game) : StatsAcc := games.foldl procGame emptyAcc

/-- The per-player aggregate values reported by `view_player_stats`
(tracker.py lines 295-307).  Rates are rationals standing for the Python
float divisions. -/
structure PlayerStats where
  gamesPlayed : Nat
  wins : Nat
  winRate : ℚ
  averageScore : ℚ
  highScore : Int
deriving DecidableEq

/-- The statistics reported for one player (tracker.py lines 296-306). -/
def statsOf (acc : StatsAcc) (p : String) : PlayerStats :=
  let tg := dget 0 acc.games p
  let w := dget 0 acc.wins p
  { gamesPlayed := tg
    wins := w
    winRate := if tg > 0 then ((w : ℚ) / (tg : ℚ)) * 100 else 0
    averageScore := if tg > 0 then ((dget 0 acc.total p : ℤ) : ℚ) / (tg : ℚ) else 0
    highScore := dget 0 acc.maxs p }

/-- The statistics output of `view_player_stats`: one entry per key of the
accumulated `player_games` dict, enumerated in sorted order
(tracker.py line 295). -/
def compute (games : List Game) : List (String × PlayerStats) :=
  (sortStrings (dkeys (aggregate games).games)).map
    fun p => (p, statsOf (aggregate games) p)

/-- The scores recorded for one player across a sequence of records, in
storage order. -/
def scoresOf (p : String) : List Game → List Int
  | [] => []
  | g :: gs => (g.scores.filter fun s => s.1 = p).map Prod.snd ++ scoresOf p gs

/-- One stored row of the `games` table, minus the id column
(tracker.py lines 20-31): all cells are text. -/
structure StoredRow where
  gameDate : Str
  players : Str
  winners : Str
  scores : Str
  kingdomCards : Str
  expansionsUsed : Str
  notes : Str
deriving DecidableEq

/-- Persisted state of the `games` table: the rows with their ids, and the
`sqlite_sequence` value backing `INTEGER PRIMARY KEY AUTOINCREMENT`
(tracker.py line 22).  Every operation of the tracker opens and closes its
own connection, so no state outside this structure survives between
operations. -/
structure GamesDB where
  rows : List (Nat × StoredRow)
  seq : Nat
deriving DecidableEq

/-- The largest record id present, zero for an empty table. -/
def maxRecordId (db : GamesDB) : Nat := (db.rows.map Prod.fst).foldl max 0

/-- SQLite AUTOINCREMENT id assignment for an `INSERT` that does not give
an id: one greater than the larger of the sequence value and the largest
existing row id; the new id is also stored back into the sequence. -/
def insertGame (db : GamesDB) (r : StoredRow) : GamesDB × Nat :=
  let i := max db.seq (maxRecordId db) + 1
  (⟨db.rows ++ [(i, r)], i⟩, i)

/-- The id the next `INSERT` will be assigned, read off the persisted
state alone. -/
def nextId (db : GamesDB) : Nat := max db.seq (maxRecordId db) + 1

/-- The table right after `create_tables` on a fresh database. -/
def emptyGamesDB : GamesDB := ⟨[], 0⟩

/-- Saving a sequence of records in order. -/
def saveAll (db : GamesDB) (rs : List StoredRow) : GamesDB :=
  rs.foldl (fun d r => (insertGame d r).1) db

/-- A simulated process restart: the tracker holds no in-memory counter
(every operation reconnects, tracker.py line 10-12), so reopening the
database file yields exactly the persisted state. -/
def reloadDB (db : GamesDB) : GamesDB := db

/-- Storage-level failure kind of the insert path. -/
inductive PersistErr
  | unwritable
deriving DecidableEq

/-- The `INSERT` of `record_game` under a writability fault flag: an
unwritable store raises `sqlite3.Error` before anything is committed. -/
def tryInsertGame (writable : Bool) (db : GamesDB) (r : StoredRow) :
    Except PersistErr (GamesDB × Nat) :=
  if writable then Except.ok (insertGame db r) else Except.error PersistErr.unwritable

/-- The persistence step of `record_game` (tracker.py lines 181-199): on
`sqlite3.Error` the error is reported, the uncommitted transaction is
discarded when the connection closes, and the stored state is unchanged. -/
def record_game_save (writable : Bool) (db : GamesDB) (r : StoredRow) :
    GamesDB × Except PersistErr Nat :=
  match tryInsertGame writable db r with
  | Except.ok (db', i) => (db', Except.ok i)
  | Except.error e => (db, Except.error e)

/-- `add_kingdom_card` (tracker.py lines 87-103) acting on the stored
catalog of card names: the `UNIQUE` constraint turns a duplicate insert
into `IntegrityError`, reported as `False` with the catalog unchanged. -/
def add_kingdom_card (cat : List String) (name : String) : Bool × List String :=
  if name ∈ cat then (false, cat) else (true, cat ++ [name])

/-- `seed_kingdom_cards` (tracker.py lines 47-85) acting on the stored
catalog: when `COUNT(*)` is zero, the default names are inserted in sorted
order, an `IntegrityError` on a duplicate being passed over; otherwise
nothing is inserted. -/
def seed_kingdom_cards (defaults : List String) (cat : List String) : List String :=
  if cat.length = 0 then
    (sortStrings defaults).foldl (fun c n => if n ∈ c then c else c ++ [n]) cat
  else cat

/-- Invariant of the games table along program runs: the sequence value
equals both the largest id and the row count, every id is bounded by the
sequence value, and ids are strictly increasing in storage order. -/
def DBInv (db : GamesDB) : Prop :=
  db.seq = maxRecordId db ∧ db.seq = db.rows.length ∧
    (∀ i ∈ db.rows.map Prod.fst, i ≤ db.seq) ∧
    (db.rows.map Prod.fst).Pairwise (· < ·)

/-- Every player key accumulated in `player_games` has a count of at
least one. -/
def GamesGeOne (acc : StatsAcc) : Prop :=
  ∀ x ∈ dkeys acc.games, 1 ≤ dget 0 acc.games x

theorem dbInv_empty : DBInv emptyGamesDB := by
  refine ⟨rfl, rfl, ?_, ?_⟩ <;> simp [emptyGamesDB, maxRecordId]

theorem maxRecordId_append (l : List (Nat × StoredRow)) (p : Nat × StoredRow) (s t : Nat) :
    maxRecordId ⟨l ++ [p], s⟩ = max (maxRecordId ⟨l, t⟩) p.1 := by
  simp [maxRecordId, List.foldl_append]

theorem dbInv_insert (db : GamesDB) (r : StoredRow) (h : DBInv db) :
    DBInv (insertGame db r).1 ∧ (insertGame db r).1.seq = db.seq + 1 := by
  obtain ⟨h1, h2, h3, h4⟩ := h
  have hmax : max db.seq (maxRecordId db) = db.seq := by omega
  constructor
  · refine ⟨?_, ?_, ?_, ?_⟩
    · show _ = maxRecordId ⟨db.rows ++ [_], _⟩
      rw [maxRecordId_append _ _ _ db.seq]
      show _ = max (maxRecordId db) _
      simp [insertGame, hmax]
      omega
    · simp [insertGame, hmax]
      omega
    · intro i hi
      simp [insertGame, hmax] at hi ⊢
      rcases hi with hi | hi
      · have := h3 i (by simp [hi])
        omega
      · omega
    · simp only [insertGame, hmax, List.map_append]
      rw [List.pairwise_append]
      refine ⟨h4, by simp, ?_⟩
      intro a ha b hb
      simp at hb
      have := h3 a ha
      omega
  · simp [insertGame, hmax]

theorem dbInv_saveAll (rs : List StoredRow) :
    ∀ db, DBInv db → DBInv (saveAll db rs) ∧ (saveAll db rs).seq = db.seq + rs.length := by
  induction rs with
  | nil => intro db h; exact ⟨h, by simp [saveAll]⟩
  | cons r rs ih =>
    intro db h
    have step := dbInv_insert db r h
    have heq : saveAll db (r :: rs) = saveAll (insertGame db r).1 rs := by
      simp [saveAll]
    rw [heq]
    have hs := ih (insertGame db r).1 step.1
    exact ⟨hs.1, by rw [hs.2, step.2]; simp; omega⟩

theorem foldl_insertIfAbsent (l : List String) :
    ∀ acc : List String, acc.Nodup →
      ((l.foldl (fun c n => if n ∈ c then c else c ++ [n]) acc).Nodup
      ∧ ∀ x, x ∈ l.foldl (fun c n => if n ∈ c then c else c ++ [n]) acc ↔ x ∈ acc ∨ x ∈ l) := by
  induction l with
  | nil => intro acc h; simpa using h
  | cons n l ih =>
    intro acc h
    by_cases hn : n ∈ acc
    · have hr := ih acc h
      simp only [List.foldl_cons, if_pos hn]
      refine ⟨hr.1, fun x => ?_⟩
      rw [(hr.2 x)]
      constructor
      · rintro (hx | hx)
        · exact Or.inl hx
        · exact Or.inr (by simp [hx])
      · rintro (hx | hx)
        · exact Or.inl hx
        · rcases List.mem_cons.mp hx with rfl | hx
          · exact Or.inl hn
          · exact Or.inr hx
    · have hnd : (acc ++ [n]).Nodup := by
        simp [List.nodup_append, h, hn]
      have hr := ih (acc ++ [n]) hnd
      simp only [List.foldl_cons, if_neg hn]
      refine ⟨hr.1, fun x => ?_⟩
      rw [(hr.2 x)]
      simp only [List.mem_append, List.mem_singleton, List.mem_cons]
      tauto

theorem decodeScoresStep_foldl (es : List Str) :
    ∀ acc : List (Str × Int) × List Str,
      (es.foldl decodeScoresStep acc).1
          = (es.filter entryGood).foldl (fun d e => dset d (entryKV e).1 (entryKV e).2) acc.1
      ∧ (es.foldl decodeScoresStep acc).2 = acc.2 ++ es.filter entryWarn := by
  induction es with
  | nil => intro acc; simp
  | cons e es ih =>
    intro acc
    rcases hsplit : e.splitOn ':' with _ | ⟨a, _ | ⟨b, _ | _⟩⟩
    · have hg : entryGood e = false := by simp [entryGood, hsplit]
      have hw : entryWarn e = false := by simp [entryWarn, hsplit]
      have hstep : decodeScoresStep acc e = acc := by simp [decodeScoresStep, hsplit]
      simp only [List.foldl_cons, hstep, List.filter_cons, hg, hw, Bool.false_eq_true, if_false]
      exact ih acc
    · have hg : entryGood e = false := by simp [entryGood, hsplit]
      have hw : entryWarn e = false := by simp [entryWarn, hsplit]
      have hstep : decodeScoresStep acc e = acc := by simp [decodeScoresStep, hsplit]
      simp only [List.foldl_cons, hstep, List.filter_cons, hg, hw, Bool.false_eq_true, if_false]
      exact ih acc
    · rcases hp : pyParseInt (stripStr b) with _ | v
      · have hg : entryGood e = false := by simp [entryGood, hsplit, hp]
        have hw : entryWarn e = true := by simp [entryWarn, hsplit, hp]
        have hstep : decodeScoresStep acc e = (acc.1, acc.2 ++ [e]) := by
          simp [decodeScoresStep, hsplit, hp]
        simp only [List.foldl_cons, hstep, List.filter_cons, hg, hw, Bool.false_eq_true,
          if_false, if_true]
        have hr := ih (acc.1, acc.2 ++ [e])
        refine ⟨by simpa using hr.1, ?_⟩
        rw [hr.2]
        simp
      · have hg : entryGood e = true := by simp [entryGood, hsplit, hp]
        have hw : entryWarn e = false := by simp [entryWarn, hsplit, hp]
        have hk : entryKV e = (stripStr a, v) := by simp [entryKV, hsplit, hp]
        have hstep : decodeScoresStep acc e = (dset acc.1 (stripStr a) v, acc.2) := by
          simp [decodeScoresStep, hsplit, hp]
        simp only [List.foldl_cons, hstep, List.filter_cons, hg, hw, Bool.false_eq_true,
          if_false, if_true, hk]
        have hr := ih (dset acc.1 (stripStr a) v, acc.2)
        exact ⟨by simpa using hr.1, by simpa using hr.2⟩
    · have hg : entryGood e = false := by simp [entryGood, hsplit]
      have hw : entryWarn e = false := by simp [entryWarn, hsplit]
      have hstep : decodeScoresStep acc e = acc := by simp [decodeScoresStep, hsplit]
      simp only [List.foldl_cons, hstep, List.filter_cons, hg, hw, Bool.false_eq_true, if_false]
      exact ih acc
theorem digitChar10_isDigit : ∀ d : Nat, (digitChar10 d).isDigit = true
  | 0 | 1 | 2 | 3 | 4 | 5 | 6 | 7 | 8 => rfl
  | _ + 9 => rfl

theorem digitChar10_spec : ∀ d : Nat, d < 10 → charVal (digitChar10 d) = d ∧ digitChar10 d ≠ '_'
  | 0, _ => by refine ⟨rfl, by decide⟩
  | 1, _ => by refine ⟨rfl, by decide⟩
  | 2, _ => by refine ⟨rfl, by decide⟩
  | 3, _ => by refine ⟨rfl, by decide⟩
  | 4, _ => by refine ⟨rfl, by decide⟩
  | 5, _ => by refine ⟨rfl, by decide⟩
  | 6, _ => by refine ⟨rfl, by decide⟩
  | 7, _ => by refine ⟨rfl, by decide⟩
  | 8, _ => by refine ⟨rfl, by decide⟩
  | 9, _ => by refine ⟨rfl, by decide⟩

theorem natToStrAux_digits (fuel : Nat) :
    ∀ n, ∀ c ∈ natToStrAux fuel n, c.isDigit = true := by
  induction fuel with
  | zero => intro n c hc; simp [natToStrAux] at hc
  | succ fuel ih =>
    intro n c hc
    by_cases hn : n = 0
    · simp [natToStrAux, hn] at hc
    · simp only [natToStrAux, if_neg hn, List.mem_append, List.mem_singleton] at hc
      rcases hc with hc | rfl
      · exact ih (n / 10) c hc
      · exact digitChar10_isDigit _

theorem foldl_natToStrAux (fuel : Nat) :
    ∀ n a, n ≤ fuel →
      (natToStrAux fuel n).foldl (fun x c => if c = '_' then x else x * 10 + charVal c) a
        = a * 10 ^ (natToStrAux fuel n).length + n := by
  induction fuel with
  | zero =>
    intro n a hn
    have : n = 0 := by omega
    subst this
    simp [natToStrAux]
  | succ fuel ih =>
    intro n a hn
    by_cases hz : n = 0
    · subst hz; simp [natToStrAux]
    · have hrec : n / 10 ≤ fuel := by
        have := Nat.div_lt_self (Nat.pos_of_ne_zero hz) (by norm_num : (1:Nat) < 10)
        omega
      have hd := digitChar10_spec (n % 10) (Nat.mod_lt n (by norm_num))
      simp only [natToStrAux, if_neg hz, List.foldl_append, List.foldl_cons, List.foldl_nil,
        List.length_append, List.length_singleton]
      rw [ih (n / 10) a hrec, if_neg hd.2, hd.1, Nat.pow_succ]
      have hdm := Nat.div_add_mod n 10
      ring_nf
      omega

theorem digitsVal_natToStr (n : Nat) : digitsVal (natToStr n) = n := by
  by_cases hz : n = 0
  · subst hz; rfl
  · have := foldl_natToStrAux n n 0 le_rfl
    simp only [natToStr, if_neg hz, digitsVal]
    rw [this]
    ring

theorem natToStr_digits (n : Nat) : ∀ c ∈ natToStr n, c.isDigit = true := by
  by_cases hz : n = 0
  · subst hz; intro c hc; simp [natToStr] at hc; subst hc; rfl
  · simp only [natToStr, if_neg hz]
    exact natToStrAux_digits n n

theorem natToStr_ne_nil (n : Nat) : natToStr n ≠ [] := by
  by_cases hz : n = 0
  · subst hz; simp [natToStr]
  · simp only [natToStr, if_neg hz]
    intro h
    have := foldl_natToStrAux n n 0 le_rfl
    rw [h] at this
    simp at this
    omega

theorem digitsUS_of_digits : ∀ s : Str, s ≠ [] → (∀ c ∈ s, c.isDigit = true) → digitsUS s = true := by
  intro s
  induction s with
  | nil => intro h; exact absurd rfl h
  | cons c s ih =>
    intro _ hall
    rcases s with _ | ⟨d, rest⟩
    · simpa [digitsUS] using hall c (by simp)
    · have hd : d.isDigit = true := hall d (by simp)
      have hdu : d ≠ '_' := by intro h; rw [h] at hd; simp at hd
      simp only [digitsUS, if_neg hdu]
      rw [hall c (by simp), ih (by simp) (fun x hx => hall x (by simp [hx]))]
      rfl

theorem digitsUS_natToStr (n : Nat) : digitsUS (natToStr n) = true :=
  digitsUS_of_digits _ (natToStr_ne_nil n) (natToStr_digits n)

theorem dropWhile_eq_self_of_all {p : Char → Bool} {s : Str}
    (h : ∀ c ∈ s, p c = false) : s.dropWhile p = s := by
  rcases s with _ | ⟨c, s⟩
  · rfl
  · simp [List.dropWhile_cons, h c (by simp)]

theorem stripStr_eq_self {s : Str} (h : ∀ c ∈ s, pyIsSpace c = false) : stripStr s = s := by
  unfold stripStr
  rw [dropWhile_eq_self_of_all h, dropWhile_eq_self_of_all (by simpa using h), List.reverse_reverse]

theorem isDigit_not_space {c : Char} (h : c.isDigit = true) : pyIsSpace c = false := by
  cases hps : pyIsSpace c
  · rfl
  · exfalso
    simp only [pyIsSpace, Bool.or_eq_true, decide_eq_true_eq] at hps
    rcases hps with ((((rfl | rfl) | rfl) | rfl) | rfl) | rfl <;> exact absurd h (by decide)

theorem pyParseInt_intToStr (v : Int) : pyParseInt (intToStr v) = some v := by
  by_cases hv : v < 0
  · have hs : stripStr (intToStr v) = intToStr v := by
      refine stripStr_eq_self ?_
      intro c hc
      simp only [intToStr, if_pos hv, List.mem_cons] at hc
      rcases hc with rfl | hc
      · decide
      · exact isDigit_not_space (natToStr_digits _ c hc)
    have h1 : stripStr (intToStr v) = '-' :: natToStr v.natAbs := by
      rw [hs]; simp [intToStr, hv]
    unfold pyParseInt
    rw [h1]
    simp only [if_pos, digitsUS_natToStr, if_true, digitsVal_natToStr, Option.some.injEq]
    omega
  · have hs : stripStr (intToStr v) = intToStr v := by
      refine stripStr_eq_self ?_
      intro c hc
      simp only [intToStr, if_neg hv] at hc
      exact isDigit_not_space (natToStr_digits _ c hc)
    rcases hcons : natToStr v.toNat with _ | ⟨c, rest⟩
    · exact absurd hcons (natToStr_ne_nil _)
    · have hcd : c.isDigit = true := by
        refine natToStr_digits v.toNat c ?_
        rw [hcons]; simp
      have hc1 : c ≠ '-' := by intro h; rw [h] at hcd; simp at hcd
      have hc2 : c ≠ '+' := by intro h; rw [h] at hcd; simp at hcd
      have h1 : stripStr (intToStr v) = c :: rest := by
        rw [hs]; simp [intToStr, hv, hcons]
      unfold pyParseInt
      rw [h1]
      simp only [if_neg hc1, if_neg hc2]
      rw [← hcons, digitsUS_natToStr]
      simp only [if_true, digitsVal_natToStr, Option.some.injEq]
      omega


theorem intToStr_chars (v : Int) : ∀ c ∈ intToStr v, c.isDigit = true ∨ c = '-' := by
  intro c hc
  unfold intToStr at hc
  by_cases hv : v < 0
  · rw [if_pos hv] at hc
    rcases List.mem_cons.mp hc with rfl | hc
    · exact Or.inr rfl
    · exact Or.inl (natToStr_digits _ c hc)
  · rw [if_neg hv] at hc
    exact Or.inl (natToStr_digits _ c hc)

theorem sep_not_mem_intToStr (v : Int) : ';' ∉ intToStr v ∧ ':' ∉ intToStr v := by
  constructor <;> intro h <;> rcases intToStr_chars v _ h with h' | h' <;> simp at h'

theorem intercalate_pair (x : Char) (k w : Str) : [x].intercalate [k, w] = k ++ x :: w := by
  simp [List.intercalate]

theorem splitOn_entry {k w : Str} (hk : ':' ∉ k) (hw : ':' ∉ w) :
    (k ++ ':' :: w).splitOn ':' = [k, w] := by
  have h := List.splitOn_intercalate [k, w] ':' (by
    intro l hl
    rcases List.mem_cons.mp hl with rfl | hl
    · exact hk
    · rcases List.mem_cons.mp hl with rfl | hl
      · exact hw
      · simp at hl) (by simp)
  rwa [intercalate_pair] at h

theorem dset_append {κ α : Type} [DecidableEq κ] (d : List (κ × α)) (k : κ) (v : α)
    (h : k ∉ dkeys d) : dset d k v = d ++ [(k, v)] := by
  induction d with
  | nil => rfl
  | cons p d ih =>
    rcases p with ⟨k', v'⟩
    simp only [dkeys, List.map_cons, List.mem_cons, not_or] at h
    have hne : k' ≠ k := fun e => h.1 e.symm
    simp only [dset, if_neg hne, List.cons_append, List.cons.injEq, true_and]
    exact ih h.2

theorem decodeScoresStep_entry (acc : List (Str × Int) × List Str) (k : Str) (v : Int)
    (hk : ':' ∉ k) (hstrip : stripStr k = k) :
    decodeScoresStep acc (k ++ ':' :: intToStr v) = (dset acc.1 k v, acc.2) := by
  have hs : stripStr (intToStr v) = intToStr v := by
    refine stripStr_eq_self ?_
    intro c hc
    rcases intToStr_chars v c hc with h | rfl
    · exact isDigit_not_space h
    · rfl
  unfold decodeScoresStep
  simp only [splitOn_entry hk (sep_not_mem_intToStr v).2, hs, pyParseInt_intToStr, hstrip]

theorem roundtrip_scores_aux (xs : List (Str × Int))
    (hk : ∀ p ∈ xs, ':' ∉ p.1 ∧ stripStr p.1 = p.1)
    (hnd : (xs.map Prod.fst).Nodup) :
    ∀ acc : List (Str × Int) × List Str, (∀ q ∈ xs, q.1 ∉ dkeys acc.1) →
      (xs.map fun p => p.1 ++ ':' :: intToStr p.2).foldl decodeScoresStep acc
        = (acc.1 ++ xs, acc.2) := by
  induction xs with
  | nil => intro acc _; simp
  | cons p xs ih =>
    intro acc hacc
    rcases p with ⟨k, v⟩
    simp only [List.map_cons, List.foldl_cons]
    rw [decodeScoresStep_entry acc k v (hk ⟨k, v⟩ (by simp)).1 (hk ⟨k, v⟩ (by simp)).2]
    rw [dset_append acc.1 k v (hacc ⟨k, v⟩ (by simp))]
    have hnd' : (xs.map Prod.fst).Nodup := by
      simp only [List.map_cons, List.nodup_cons] at hnd
      exact hnd.2
    have hkmem : k ∉ xs.map Prod.fst := by
      simp only [List.map_cons, List.nodup_cons] at hnd
      exact hnd.1
    have hrec := ih (fun q hq => hk q (by simp [hq])) hnd' (acc.1 ++ [(k, v)], acc.2) ?_
    · rw [hrec]
      simp
    · intro q hq
      simp only [dkeys, List.map_append]
      intro hmem
      rcases List.mem_append.mp hmem with hm | hm
      · exact hacc q (by simp [hq]) hm
      · simp only [List.map_cons, List.map_nil, List.mem_singleton] at hm
        exact hkmem (hm ▸ List.mem_map_of_mem Prod.fst hq)

theorem decodeScores_encodeScores (xs : List (Str × Int))
    (hsep : ∀ p ∈ xs, ';' ∉ p.1 ∧ ':' ∉ p.1)
    (hstrip : ∀ p ∈ xs, stripStr p.1 = p.1)
    (hnd : (xs.map Prod.fst).Nodup) :
    (decodeScores (encodeScores xs)).1 = xs := by
  rcases xs with _ | ⟨p, xs⟩
  · rfl
  · have hsplit : (encodeScores (p :: xs)).splitOn ';'
        = (p :: xs).map fun q => q.1 ++ ':' :: intToStr q.2 := by
      refine List.splitOn_intercalate ((p :: xs).map fun q => q.1 ++ ':' :: intToStr q.2) ';'
        ?_ (by simp)
      intro l hl
      rcases List.mem_map.mp hl with ⟨q, hq, rfl⟩
      simp only [List.mem_append, List.mem_cons]
      push_neg
      refine ⟨(hsep q hq).1, by decide, (sep_not_mem_intToStr q.2).1⟩
    have henc : encodeScores (p :: xs) ≠ [] := by
      intro h
      have h2 := hsplit
      rw [h] at h2
      have h3 : ((p :: xs).map fun q => q.1 ++ ':' :: intToStr q.2) = [[]] := h2.symm
      simp only [List.map_cons, List.cons.injEq] at h3
      exact absurd h3.1 (by simp)
    unfold decodeScores
    rw [if_neg henc, hsplit]
    rw [roundtrip_scores_aux (p :: xs)
      (fun q hq => ⟨(hsep q hq).2, hstrip q hq⟩) hnd ([], []) (by simp [dkeys])]
    rfl

theorem decodeList_encodeList (xs : List Str)
    (hsep : ∀ x ∈ xs, ';' ∉ x) (hne : xs ≠ [[]]) :
    decodeList (encodeList xs) = xs := by
  by_cases hxs : xs = []
  · subst hxs; rfl
  · have hsplit : (encodeList xs).splitOn ';' = xs :=
      List.splitOn_intercalate xs ';' hsep hxs
    have henc : encodeList xs ≠ [] := by
      intro h
      have h2 := hsplit
      rw [h] at h2
      exact hne h2.symm
    unfold decodeList
    rw [if_neg henc, hsplit]


theorem dset_nil {κ α : Type} [DecidableEq κ] (k : κ) (v : α) : dset [] k v = [(k, v)] := rfl

theorem dset_cons {κ α : Type} [DecidableEq κ] (k' : κ) (v' : α) (d : List (κ × α))
    (k : κ) (v : α) :
    dset ((k', v') :: d) k v = if k' = k then (k, v) :: d else (k', v') :: dset d k v := rfl

theorem dget_nil {κ α : Type} [DecidableEq κ] (v₀ : α) (k : κ) : dget v₀ [] k = v₀ := rfl

theorem dget_cons {κ α : Type} [DecidableEq κ] (v₀ v' : α) (k' k : κ) (d : List (κ × α)) :
    dget v₀ ((k', v') :: d) k = if k' = k then v' else dget v₀ d k := rfl

theorem dkeys_dset {κ α : Type} [DecidableEq κ] (d : List (κ × α)) (k : κ) (v : α) :
    ∀ x, x ∈ dkeys (dset d k v) ↔ x ∈ dkeys d ∨ x = k := by
  intro x
  induction d with
  | nil => simp [dset_nil, dkeys]
  | cons p d ih =>
    rcases p with ⟨k', v'⟩
    rw [dset_cons]
    by_cases hp : k' = k
    · subst hp
      rw [if_pos rfl]
      simp only [dkeys, List.map_cons, List.mem_cons]
      tauto
    · rw [if_neg hp]
      simp only [dkeys, List.map_cons, List.mem_cons] at ih ⊢
      rw [ih]
      tauto

theorem dget_dset_self {κ α : Type} [DecidableEq κ] (d : List (κ × α)) (k : κ) (v : α) (v₀ : α) :
    dget v₀ (dset d k v) k = v := by
  induction d with
  | nil => rw [dset_nil, dget_cons, if_pos rfl]
  | cons p d ih =>
    rcases p with ⟨k', v'⟩
    rw [dset_cons]
    by_cases hp : k' = k
    · subst hp
      rw [if_pos rfl, dget_cons, if_pos rfl]
    · rw [if_neg hp, dget_cons, if_neg hp, ih]

theorem dget_dset_ne {κ α : Type} [DecidableEq κ] (d : List (κ × α)) (k x : κ) (v : α) (v₀ : α)
    (h : x ≠ k) : dget v₀ (dset d k v) x = dget v₀ d x := by
  have h' : ¬ k = x := fun e => h e.symm
  induction d with
  | nil => rw [dset_nil, dget_cons, if_neg h', dget_nil]
  | cons p d ih =>
    rcases p with ⟨k', v'⟩
    rw [dset_cons]
    by_cases hp : k' = k
    · subst hp
      rw [if_pos rfl, dget_cons, if_neg h', dget_cons, if_neg h']
    · rw [if_neg hp, dget_cons, dget_cons, ih]

theorem procWinner_frame (gid : Nat) (acc : StatsAcc) (w : String) :
    (procWinner gid acc w).games = acc.games ∧ (procWinner gid acc w).maxs = acc.maxs := by
  unfold procWinner
  by_cases h : dhas acc.games w = true <;> simp [h]

theorem foldl_procWinner_frame (ws : List String) (gid : Nat) :
    ∀ acc : StatsAcc, (ws.foldl (procWinner gid) acc).games = acc.games
      ∧ (ws.foldl (procWinner gid) acc).maxs = acc.maxs := by
  induction ws with
  | nil => intro acc; exact ⟨rfl, rfl⟩
  | cons w ws ih =>
    intro acc
    simp only [List.foldl_cons]
    rw [(ih (procWinner gid acc w)).1, (ih (procWinner gid acc w)).2,
      (procWinner_frame gid acc w).1, (procWinner_frame gid acc w).2]
    exact ⟨rfl, rfl⟩

theorem procScore_games_mem (acc : StatsAcc) (s : String × Int) (x : String) :
    x ∈ dkeys (procScore acc s).games ↔ x ∈ dkeys acc.games ∨ x = s.1 := by
  unfold procScore
  simp only []
  exact dkeys_dset acc.games s.1 _ x

theorem foldl_procScore_games_mem (ss : List (String × Int)) :
    ∀ acc x, x ∈ dkeys ((ss.foldl procScore acc).games)
      ↔ x ∈ dkeys acc.games ∨ ∃ s ∈ ss, s.1 = x := by
  induction ss with
  | nil => intro acc x; simp
  | cons s ss ih =>
    intro acc x
    simp only [List.foldl_cons]
    rw [ih (procScore acc s) x, procScore_games_mem]
    simp only [List.mem_cons]
    constructor
    · rintro ((h | rfl) | ⟨t, ht, rfl⟩)
      · exact Or.inl h
      · exact Or.inr ⟨s, Or.inl rfl, rfl⟩
      · exact Or.inr ⟨t, Or.inr ht, rfl⟩
    · rintro (h | ⟨t, (rfl | ht), rfl⟩)
      · exact Or.inl (Or.inl h)
      · exact Or.inl (Or.inr rfl)
      · exact Or.inr ⟨t, ht, rfl⟩

theorem aggregate_games_mem (games : List Game) :
    ∀ x, x ∈ dkeys (aggregate games).games ↔ ∃ g ∈ games, ∃ s ∈ g.scores, s.1 = x := by
  suffices h : ∀ acc x, x ∈ dkeys ((games.foldl procGame acc).games)
      ↔ x ∈ dkeys acc.games ∨ ∃ g ∈ games, ∃ s ∈ g.scores, s.1 = x by
    intro x
    rw [aggregate, h emptyAcc x]
    simp [emptyAcc, dkeys]
  induction games with
  | nil => intro acc x; simp
  | cons g gs ih =>
    intro acc x
    simp only [List.foldl_cons]
    rw [ih (procGame acc g) x]
    unfold procGame
    rw [(foldl_procWinner_frame g.winners g.gid _).1, foldl_procScore_games_mem]
    simp only [List.mem_cons]
    constructor
    · rintro ((h | ⟨s, hs, rfl⟩) | ⟨t, ht, hs⟩)
      · exact Or.inl h
      · exact Or.inr ⟨g, Or.inl rfl, s, hs, rfl⟩
      · exact Or.inr ⟨t, Or.inr ht, hs⟩
    · rintro (h | ⟨t, (rfl | ht), hs⟩)
      · exact Or.inl (Or.inl h)
      · exact Or.inl (Or.inr hs)
      · exact Or.inr ⟨t, ht, hs⟩

theorem procScore_ge_one (acc : StatsAcc) (s : String × Int) (h : GamesGeOne acc) :
    GamesGeOne (procScore acc s) := by
  intro x hx
  rw [procScore_games_mem] at hx
  unfold procScore
  simp only []
  rcases eq_or_ne x s.1 with rfl | hne
  · rw [dget_dset_self]
    omega
  · rw [dget_dset_ne _ _ _ _ _ hne]
    rcases hx with hx | hx
    · exact h x hx
    · exact absurd hx hne

theorem aggregate_ge_one (games : List Game) : GamesGeOne (aggregate games) := by
  suffices h : ∀ acc, GamesGeOne acc → GamesGeOne (games.foldl procGame acc) by
    refine h emptyAcc ?_
    intro x hx
    simp [emptyAcc, dkeys] at hx
  induction games with
  | nil => intro acc h; exact h
  | cons g gs ih =>
    intro acc h
    simp only [List.foldl_cons]
    refine ih (procGame acc g) ?_
    unfold procGame
    have hfr := foldl_procWinner_frame g.winners g.gid (g.scores.foldl procScore acc)
    intro x hx
    rw [hfr.1] at hx ⊢
    have hsc : ∀ ss : List (String × Int), ∀ acc2 : StatsAcc, GamesGeOne acc2 →
        GamesGeOne (ss.foldl procScore acc2) := by
      intro ss
      induction ss with
      | nil => intro acc2 h2; exact h2
      | cons s ss ih2 =>
        intro acc2 h2
        simp only [List.foldl_cons]
        exact ih2 _ (procScore_ge_one acc2 s h2)
    exact hsc g.scores acc h x hx


theorem maxIf (a b : Int) : (if b > a then b else a) = max a b := by
  split <;> omega

theorem procScore_maxs_get (acc : StatsAcc) (s : String × Int) (p : String) :
    dget 0 (procScore acc s).maxs p
      = if s.1 = p then max (dget 0 acc.maxs p) s.2 else dget 0 acc.maxs p := by
  unfold procScore
  simp only []
  by_cases hp : s.1 = p
  · rw [if_pos hp, ← hp]
    by_cases hgt : s.2 > dget 0 acc.maxs s.1
    · rw [if_pos hgt, dget_dset_self]
      omega
    · rw [if_neg hgt, dget_dset_self]
      omega
  · rw [if_neg hp]
    have hne : p ≠ s.1 := fun e => hp e.symm
    by_cases hgt : s.2 > dget 0 acc.maxs s.1
    · rw [if_pos hgt, dget_dset_ne _ _ _ _ _ hne]
    · rw [if_neg hgt, dget_dset_ne _ _ _ _ _ hne]

theorem foldl_procScore_maxs (ss : List (String × Int)) (p : String) :
    ∀ acc, dget 0 ((ss.foldl procScore acc).maxs) p
      = ((ss.filter fun s => s.1 = p).map Prod.snd).foldl max (dget 0 acc.maxs p) := by
  induction ss with
  | nil => intro acc; rfl
  | cons s ss ih =>
    intro acc
    simp only [List.foldl_cons, List.filter_cons]
    rw [ih (procScore acc s), procScore_maxs_get]
    by_cases hp : s.1 = p
    · rw [if_pos hp]
      simp [hp]
    · rw [if_neg hp]
      simp [hp]

theorem aggregate_maxs (games : List Game) (p : String) :
    dget 0 (aggregate games).maxs p = (scoresOf p games).foldl max 0 := by
  suffices h : ∀ acc, dget 0 ((games.foldl procGame acc).maxs) p
      = (scoresOf p games).foldl max (dget 0 acc.maxs p) by
    rw [aggregate, h emptyAcc]
    rfl
  induction games with
  | nil => intro acc; rfl
  | cons g gs ih =>
    intro acc
    simp only [List.foldl_cons]
    rw [ih (procGame acc g)]
    unfold procGame
    rw [(foldl_procWinner_frame g.winners g.gid _).2, foldl_procScore_maxs]
    show _ = (scoresOf p (g :: gs)).foldl max _
    rw [scoresOf, List.foldl_append]

-- compute-level facts
theorem compute_keys (games : List Game) :
    (compute games).map Prod.fst = sortStrings (dkeys (aggregate games).games) := by
  unfold compute
  rw [List.map_map]
  exact List.map_id _ ▸ rfl

theorem compute_mem (games : List Game) (p : String) (st : PlayerStats)
    (h : (p, st) ∈ compute games) :
    st = statsOf (aggregate games) p ∧ p ∈ dkeys (aggregate games).games := by
  unfold compute at h
  rcases List.mem_map.mp h with ⟨q, hq, he⟩
  have h1 : q = p := congrArg Prod.fst he
  have h2 : statsOf (aggregate games) q = st := congrArg Prod.snd he
  subst h1
  refine ⟨h2.symm, ?_⟩
  exact (List.perm_insertionSort (fun a b => pyStrLe a b = true) _).mem_iff.mp hq


/-- C1: the claim states that a win is counted for a record only when the
winner appears as a key of that same record scores mapping, and that a
winner absent from that record scores mapping produces a warning and is
never counted.  The code checks membership in the accumulated
`player_games` dict instead: with a first record scored by A and a second
record scored only by B but won by A, the win of A in the second record is
counted (total two wins) and no warning is emitted, although A has no
score entry in the second record. -/
theorem C1_winner_check_is_cumulative :
    (statsOf (aggregate [⟨1, ["A"], [("A", 30)]⟩, ⟨2, ["A"], [("B", 20)]⟩]) "A").wins = 2
    ∧ (aggregate [⟨1, ["A"], [("A", 30)]⟩, ⟨2, ["A"], [("B", 20)]⟩]).warns = [] := by
  decide

/-- C2 counterexample: a record whose scores mapping has the key
consisting of a space followed by A contains neither separator character,
yet decoding the encoded form strips the key, so the round trip is not the
identity. -/
theorem C2_roundtrip_counterexample :
    (∀ p ∈ [((" A").toList, (5 : Int))], ';' ∉ p.1 ∧ ':' ∉ p.1)
    ∧ (decodeScores (encodeScores [((" A").toList, (5 : Int))])).1
        ≠ [((" A").toList, (5 : Int))] := by
  decide

/-- C2 amended: decode after encode is the identity on each multi-valued
field of a valid record, provided no element contains `;` or `:`, no
list-valued field is the one-element list holding the empty string, every
score key is unchanged by whitespace stripping, and the score keys are
distinct (they form a mapping). -/
theorem C2_roundtrip_amended (players winners kingdomCards expansions : List Str)
    (scores : List (Str × Int))
    (hpl : ∀ x ∈ players, ';' ∉ x ∧ ':' ∉ x) (hpe : players ≠ [[]])
    (hwl : ∀ x ∈ winners, ';' ∉ x ∧ ':' ∉ x) (hwe : winners ≠ [[]])
    (hkl : ∀ x ∈ kingdomCards, ';' ∉ x ∧ ':' ∉ x) (hke : kingdomCards ≠ [[]])
    (hel : ∀ x ∈ expansions, ';' ∉ x ∧ ':' ∉ x) (hee : expansions ≠ [[]])
    (hsl : ∀ p ∈ scores, ';' ∉ p.1 ∧ ':' ∉ p.1)
    (hss : ∀ p ∈ scores, stripStr p.1 = p.1)
    (hsn : (scores.map Prod.fst).Nodup) :
    decodeList (encodeList players) = players
    ∧ decodeList (encodeList winners) = winners
    ∧ decodeList (encodeList kingdomCards) = kingdomCards
    ∧ decodeList (encodeList expansions) = expansions
    ∧ (decodeScores (encodeScores scores)).1 = scores :=
  ⟨decodeList_encodeList _ (fun x hx => (hpl x hx).1) hpe,
   decodeList_encodeList _ (fun x hx => (hwl x hx).1) hwe,
   decodeList_encodeList _ (fun x hx => (hkl x hx).1) hke,
   decodeList_encodeList _ (fun x hx => (hel x hx).1) hee,
   decodeScores_encodeScores _ hsl hss hsn⟩

/-- C2 witness: the amended round trip evaluated on a concrete record. -/
theorem C2_roundtrip_amended_witness :
    decodeList (encodeList [("Alice").toList, ("Bob").toList])
        = [("Alice").toList, ("Bob").toList]
    ∧ (decodeScores (encodeScores [(("Alice").toList, (30 : Int)), (("Bob").toList, -5)])).1
        = [(("Alice").toList, 30), (("Bob").toList, -5)] := by
  have h := C2_roundtrip_amended [("Alice").toList, ("Bob").toList] [("Alice").toList]
      [("Moat").toList] [] [(("Alice").toList, (30 : Int)), (("Bob").toList, -5)]
      (by decide) (by decide) (by decide) (by decide) (by decide) (by decide)
      (by decide) (by decide) (by decide) (by decide) (by decide)
  exact ⟨h.1, h.2.2.2.2⟩

/-- C3: starting from an empty store, after saving any N records the next
assigned id is N + 1; it is always one greater than the maximum existing
record id, the stored ids are strictly increasing (hence unique and never
reused), the id handed to the next insert is exactly this value, and it is
unchanged by a simulated restart, being a function of persisted state. -/
theorem C3_record_ids (rows : List StoredRow) :
    nextId (saveAll emptyGamesDB rows) = rows.length + 1
    ∧ nextId (saveAll emptyGamesDB rows) = maxRecordId (saveAll emptyGamesDB rows) + 1
    ∧ ((saveAll emptyGamesDB rows).rows.map Prod.fst).Pairwise (· < ·)
    ∧ (∀ r, (insertGame (saveAll emptyGamesDB rows) r).2 = nextId (saveAll emptyGamesDB rows))
    ∧ nextId (reloadDB (saveAll emptyGamesDB rows)) = nextId (saveAll emptyGamesDB rows) := by
  obtain ⟨⟨h1, h2, h3, h4⟩, hseq⟩ := dbInv_saveAll rows emptyGamesDB dbInv_empty
  have hz : emptyGamesDB.seq = 0 := rfl
  refine ⟨?_, ?_, h4, ?_, ?_⟩
  · simp only [nextId]; omega
  · simp only [nextId]; omega
  · intro r; simp [insertGame, nextId]
  · rfl

/-- C4 counterexample: the stored scores cell holding the entry abc
followed by a well-formed entry decodes with no warning at all, although
the claim requires a warning for the entry that does not contain exactly
one `:`; the well-formed remainder is still decoded. -/
theorem C4_malformed_entry_counterexample :
    (decodeScores (("abc;B:2").toList)).1 = [(("B").toList, 2)]
    ∧ (decodeScores (("abc;B:2").toList)).2 = [] := by
  decide

/-- C4 amended: decoding a stored scores cell is never fatal; an entry
with exactly one `:` whose value part fails integer parsing is skipped
with a warning, an entry without exactly one `:` is skipped silently with
no warning, and the decoded mapping is exactly the fold of the well-formed
entries. -/
theorem C4_decode_amended (s : Str) :
    (decodeScores s).1
        = ((splitEntries s).filter entryGood).foldl
            (fun d e => dset d (entryKV e).1 (entryKV e).2) []
    ∧ (decodeScores s).2 = (splitEntries s).filter entryWarn := by
  by_cases h : s = []
  · subst h; simp [decodeScores, splitEntries]
  · simp only [decodeScores, splitEntries, if_neg h]
    simpa using decodeScoresStep_foldl (s.splitOn ';') ([], [])

/-- C5: when the backing store is unwritable, the save step of
`record_game` reports the persistence error and leaves the stored record
set unchanged: no id is assigned and no partial record is written. -/
theorem C5_unwritable_store (db : GamesDB) (r : StoredRow) :
    record_game_save false db r = (db, Except.error PersistErr.unwritable) := rfl

/-- C6: the statistics over the single record with players A and B, winner
A and scores A thirty and B twenty-five are exactly the claimed aggregates
for A and B, in sorted order, with no other players. -/
theorem C6_single_record_stats :
    compute [⟨1, ["A"], [("A", 30), ("B", 25)]⟩]
      = [("A", ⟨1, 1, 100, 30, 30⟩), ("B", ⟨1, 0, 0, 25, 25⟩)] := by
  have hagg :
      aggregate [⟨1, ["A"], [("A", 30), ("B", 25)]⟩]
        = ⟨[("A", 1)], [("A", 1), ("B", 1)], [("A", 30), ("B", 25)],
           [("A", 30), ("B", 25)], []⟩ := by
    decide
  have hskel :
      compute [⟨1, ["A"], [("A", 30), ("B", 25)]⟩]
        = [("A", statsOf (aggregate [⟨1, ["A"], [("A", 30), ("B", 25)]⟩]) "A"),
           ("B", statsOf (aggregate [⟨1, ["A"], [("A", 30), ("B", 25)]⟩]) "B")] := rfl
  rw [hskel, hagg]
  have hA : statsOf ⟨[("A", 1)], [("A", 1), ("B", 1)], [("A", 30), ("B", 25)],
      [("A", 30), ("B", 25)], []⟩ "A" = ⟨1, 1, 100, 30, 30⟩ := by
    unfold statsOf
    have h1 : dget 0 [("A", 1), ("B", 1)] "A" = 1 := by decide
    have h2 : dget 0 [("A", (1 : Nat))] "A" = 1 := by decide
    have h3 : dget 0 [("A", (30 : Int)), ("B", 25)] "A" = 30 := by decide
    rw [h1, h2, h3]
    norm_num
  have hB : statsOf ⟨[("A", 1)], [("A", 1), ("B", 1)], [("A", 30), ("B", 25)],
      [("A", 30), ("B", 25)], []⟩ "B" = ⟨1, 0, 0, 25, 25⟩ := by
    unfold statsOf
    have h1 : dget 0 [("A", 1), ("B", 1)] "B" = 1 := by decide
    have h2 : dget 0 [("A", (1 : Nat))] "B" = 0 := by decide
    have h3 : dget 0 [("A", (30 : Int)), ("B", 25)] "B" = 25 := by decide
    rw [h1, h2, h3]
    norm_num
  rw [hA, hB]

/-- C7: a player has an entry in the statistics output exactly when it
appears as a key of the scores mapping of at least one record, so a name
appearing only in winners lists is absent from the output, and every
player present in the output has played at least one game. -/
theorem C7_presence_iff_scored (games : List Game) (p : String) :
    (p ∈ (compute games).map Prod.fst ↔ ∃ g ∈ games, ∃ s ∈ g.scores, s.1 = p)
    ∧ (∀ st : PlayerStats, (p, st) ∈ compute games → 1 ≤ st.gamesPlayed) := by
  constructor
  · rw [compute_keys]
    unfold sortStrings
    rw [(List.perm_insertionSort (fun a b => pyStrLe a b = true) _).mem_iff]
    exact aggregate_games_mem games p
  · intro st hst
    obtain ⟨rfl, hmem⟩ := compute_mem games p st hst
    show 1 ≤ dget 0 (aggregate games).games p
    exact aggregate_ge_one games p hmem

/-- C7 witness: on one record where W wins without a score and A scores,
A is present in the output and has at least one game played. -/
theorem C7_presence_iff_scored_witness :
    "A" ∈ (compute [⟨1, ["W"], [("A", 3)]⟩]).map Prod.fst
    ∧ 1 ≤ (statsOf (aggregate [⟨1, ["W"], [("A", 3)]⟩]) "A").gamesPlayed := by
  refine ⟨(C7_presence_iff_scored [⟨1, ["W"], [("A", 3)]⟩] "A").1.mpr
      ⟨⟨1, ["W"], [("A", 3)]⟩, by decide, ("A", 3), by decide, rfl⟩,
    (C7_presence_iff_scored [⟨1, ["W"], [("A", 3)]⟩] "A").2
      (statsOf (aggregate [⟨1, ["W"], [("A", 3)]⟩]) "A") ?_⟩
  have hskel : compute [⟨1, ["W"], [("A", 3)]⟩]
      = [("A", statsOf (aggregate [⟨1, ["W"], [("A", 3)]⟩]) "A")] := rfl
  rw [hskel]
  exact List.mem_singleton.mpr rfl

/-- C8: adding a card name inserts it and returns true when it is absent,
and returns false leaving the catalog unchanged when it is present; two
calls with the same fresh name return true then false and the second call
leaves the catalog size unchanged. -/
theorem C8_add_known_card (cat : List String) (name : String) :
    (name ∉ cat → add_kingdom_card cat name = (true, cat ++ [name]))
    ∧ (name ∈ cat → add_kingdom_card cat name = (false, cat))
    ∧ (name ∉ cat →
        (add_kingdom_card cat name).1 = true
        ∧ (add_kingdom_card (add_kingdom_card cat name).2 name).1 = false
        ∧ (add_kingdom_card (add_kingdom_card cat name).2 name).2.length
            = (add_kingdom_card cat name).2.length) := by
  refine ⟨fun h => by simp [add_kingdom_card, h], fun h => by simp [add_kingdom_card, h],
    fun h => ?_⟩
  simp [add_kingdom_card, h]

/-- C8 witness: the double insertion evaluated on a concrete catalog. -/
theorem C8_add_known_card_witness :
    add_kingdom_card [] "Cellar" = (true, ["Cellar"])
    ∧ add_kingdom_card ["Cellar"] "Cellar" = (false, ["Cellar"]) :=
  ⟨(C8_add_known_card [] "Cellar").1 (by decide),
   (C8_add_known_card ["Cellar"] "Cellar").2.1 (by decide)⟩

/-- C9: seeding on a non-empty catalog changes nothing, and seeding an
empty catalog yields a duplicate-free catalog containing exactly the
default names, each exactly once. -/
theorem C9_seed_catalog (defaults cat : List String) :
    (cat ≠ [] → seed_kingdom_cards defaults cat = cat)
    ∧ (seed_kingdom_cards defaults []).Nodup
    ∧ (∀ x, x ∈ seed_kingdom_cards defaults [] ↔ x ∈ defaults)
    ∧ (∀ x ∈ defaults, (seed_kingdom_cards defaults []).count x = 1) := by
  have hmem : ∀ x, x ∈ sortStrings defaults ↔ x ∈ defaults := fun x =>
    (List.perm_insertionSort (fun a b => pyStrLe a b = true) defaults).mem_iff
  have hfold := foldl_insertIfAbsent (sortStrings defaults) [] (by simp)
  have hseed : seed_kingdom_cards defaults [] =
      (sortStrings defaults).foldl (fun c n => if n ∈ c then c else c ++ [n]) [] := by
    simp [seed_kingdom_cards]
  refine ⟨fun h => ?_, ?_, fun x => ?_, fun x hx => ?_⟩
  · simp [seed_kingdom_cards, List.length_eq_zero, h]
  · rw [hseed]; exact hfold.1
  · rw [hseed, hfold.2 x]; simp [hmem x]
  · refine List.count_eq_one_of_mem ?_ ?_
    · rw [hseed]; exact hfold.1
    · rw [hseed, hfold.2 x]; simp [hmem x, hx]

/-- C9 witness: a non-empty catalog is untouched, and a duplicated default
is inserted exactly once into an empty catalog. -/
theorem C9_seed_catalog_witness :
    seed_kingdom_cards ["Moat", "Cellar"] ["Witch"] = ["Witch"]
    ∧ (seed_kingdom_cards ["Moat", "Cellar", "Moat"] []).count "Moat" = 1 :=
  ⟨(C9_seed_catalog ["Moat", "Cellar"] ["Witch"]).1 (by decide),
   (C9_seed_catalog ["Moat", "Cellar", "Moat"] []).2.2.2 "Moat" (by decide)⟩

/-- C10: for every player present in the statistics output, the reported
high score is the fold of max over zero and all of the recorded scores of
that player, because the accumulator starts at zero and is raised only by
strictly greater scores; for a player with only negative scores this is
zero, a score never achieved. -/
theorem C10_high_score_max (games : List Game) (p : String) (st : PlayerStats)
    (h : (p, st) ∈ compute games) :
    st.highScore = (scoresOf p games).foldl max 0 := by
  obtain ⟨rfl, _⟩ := compute_mem games p st h
  show dget 0 (aggregate games).maxs p = _
  exact aggregate_maxs games p

/-- C10 witness: a player whose only score is negative gets the reported
high score zero. -/
theorem C10_high_score_max_witness :
    (statsOf (aggregate [⟨1, ["A"], [("A", -7)]⟩]) "A").highScore
        = (scoresOf "A" [⟨1, ["A"], [("A", -7)]⟩]).foldl max 0
    ∧ (statsOf (aggregate [⟨1, ["A"], [("A", -7)]⟩]) "A").highScore = 0 := by
  refine ⟨C10_high_score_max [⟨1, ["A"], [("A", -7)]⟩] "A" _ ?_, by decide⟩
  have hskel : compute [⟨1, ["A"], [("A", -7)]⟩]
      = [("A", statsOf (aggregate [⟨1, ["A"], [("A", -7)]⟩]) "A")] := rfl
  rw [hskel]
  exact List.mem_singleton.mpr rfl
